import Mathlib

/-!
Verification of the tree_magic type-hierarchy core (src/lib.rs).

The Rust source is shallowly embedded below: MIME types are strings,
petgraph node indices are naturals (a node's index is its position in the
node list), the graph is a node-weight list plus a directed edge list, and
the lazily-built hash maps are association lists with insert-overwrites
semantics.  The checker modules (fdo_magic, basetype) are not part of the
library file; following the specification they are abstracted as inputs: a
supported-MIME list, a byte predicate, and a path predicate per module,
with subclass pairs given as (child, parent) as the spec's external
interface prescribes.  Recursion of the graph walker is made total with an
explicit fuel parameter standing for the unbounded Rust recursion.
-/

namespace TreeMagic

abbrev MIME := String

/-- Check these types first (const TYPEORDER in lib.rs). -/
def TYPEORDER : List String :=
  ["image/png", "image/jpeg", "image/gif", "application/zip",
   "application/x-msdos-executable", "application/pdf"]

/-! ### Association-list model of FnvHashMap -/

/-- Hash-map lookup: first entry with the given key. -/
def lookupAM (m : List (MIME × Nat)) (k : MIME) : Option Nat :=
  (m.find? (fun p => p.1 = k)).map (fun p => p.2)

/-- Hash-map insert: overwrites any previous binding of the key. -/
def hmInsert (m : List (MIME × Nat)) (k : MIME) (v : Nat) : List (MIME × Nat) :=
  (k, v) :: m.filter (fun p => p.1 ≠ k)

/-- Insert into a set modelled as a duplicate-free list (HashSet::insert). -/
def setInsert (l : List (Nat × Nat)) (e : Nat × Nat) : List (Nat × Nat) :=
  if e ∈ l then l else l ++ [e]

/-- Vec::sort for strings: sort by the lexicographic string order. -/
def sortM (l : List MIME) : List MIME :=
  List.insertionSort (· ≤ ·) l

/-- Vec::dedup: remove consecutive repeated elements. -/
def dedupConsec : List MIME → List MIME
  | [] => []
  | [a] => [a]
  | a :: b :: rest => if a = b then dedupConsec (b :: rest) else a :: dedupConsec (b :: rest)

/-- Position of the first occurrence of a string in a list. -/
def posOf : List MIME → MIME → Nat
  | [], _ => 0
  | x :: xs, m => if x = m then 0 else posOf xs m + 1

/-- For-loop creating one graph node per MIME and recording it in the hash
(for mimetype in mimelist in graph_init). -/
def addNodes (st : List MIME × List (MIME × Nat)) (l : List MIME) : List MIME × List (MIME × Nat) :=
  l.foldl (fun st m => (st.1 ++ [m], hmInsert st.2 m st.1.length)) st

/-! ### The type graph (TypeStruct) and graph_init, staged -/

/-- TypeStruct: the petgraph DiGraph (node-weight list plus directed edge
list, a node being its index) and the MIME-to-node hash. -/
structure TypeStruct where
  nodes : List MIME
  edges : List (Nat × Nat)
  hash : List (MIME × Nat)
  deriving DecidableEq

/-- Combined, sorted, deduplicated MIME list of graph_init. -/
def mimelistM (fdoSup baseSup : List MIME) : List MIME :=
  dedupConsec (sortM (fdoSup ++ baseSup))

/-- Node-weight list after the node-creation loop. -/
def nodes0M (fdoSup baseSup : List MIME) : List MIME :=
  (addNodes ([], []) (mimelistM fdoSup baseSup)).1

/-- added_mimes hash after the node-creation loop. -/
def am0M (fdoSup baseSup : List MIME) : List (MIME × Nat) :=
  (addNodes ([], []) (mimelistM fdoSup baseSup)).2

/-- Resolve one raw (child, parent) pair against the hash: look up the
parent, then the child; a failed lookup drops the pair (the two continue
branches of graph_init), a successful one yields the edge (child, parent). -/
def resolvePair (am : List (MIME × Nat)) (x : MIME × MIME) : Option (Nat × Nat) :=
  match lookupAM am x.2 with
  | none => none
  | some parent =>
    match lookupAM am x.1 with
    | none => none
    | some child => some (child, parent)

/-- The edge_list HashSet built from the raw subclass pairs. -/
def edgeListOf (am : List (MIME × Nat)) (raw : List (MIME × MIME)) : List (Nat × Nat) :=
  raw.foldl (fun acc x =>
    match resolvePair am x with
    | some e => setInsert acc e
    | none => acc) []

/-- Module subclass pairs in the order graph_init concatenates them
(basetype first, then fdo_magic). -/
def edgeList1M (fdoSup baseSup : List MIME) (baseSub fdoSub : List (MIME × MIME)) : List (Nat × Nat) :=
  edgeListOf (am0M fdoSup baseSup) (baseSub ++ fdoSub)

/-- Look a fallback MIME up in the snapshot hash; create a fresh node for
it when absent (the four match blocks of graph_init). -/
def ensureNode (nodes : List MIME) (am amTmp : List (MIME × Nat)) (name : MIME) :
    List MIME × List (MIME × Nat) × Nat :=
  match lookupAM amTmp name with
  | some x => (nodes, am, x)
  | none => (nodes ++ [name], hmInsert am name nodes.length, nodes.length)

/-- Nodes, hash and the four fallback node indices after the fallback-node
creation block. -/
structure FbResult where
  nodes : List MIME
  am : List (MIME × Nat)
  tIdx : Nat
  oIdx : Nat
  aIdx : Nat
  fIdx : Nat

/-- Fallback-node creation: text/plain, application/octet-stream, all/all,
all/allfiles, each checked against the added_mimes_tmp snapshot. -/
def fbM (fdoSup baseSup : List MIME) : FbResult :=
  let nodes0 := nodes0M fdoSup baseSup
  let am0 := am0M fdoSup baseSup
  let r1 := ensureNode nodes0 am0 am0 "text/plain"
  let r2 := ensureNode r1.1 r1.2.1 am0 "application/octet-stream"
  let r3 := ensureNode r2.1 r2.2.1 am0 "all/all"
  let r4 := ensureNode r3.1 r3.2.1 am0 "all/allfiles"
  ⟨r4.1, r4.2.1, r1.2.2, r2.2.2, r3.2.2, r4.2.2⟩

/-- The four fallback node indices in the order the skip test of the
orphan loop names them (text, octet, allfiles, allall). -/
def fbIdxListM (fdoSup baseSup : List MIME) : List Nat :=
  let fb := fbM fdoSup baseSup
  [fb.tIdx, fb.oIdx, fb.fIdx, fb.aIdx]

/-- Top-level segment of a MIME: everything before the first slash, the
whole string when there is none (mimetype.split("/").nth(0)). -/
def toplevelM (s : MIME) : String :=
  String.mk (s.toList.takeWhile (fun c => c ≠ '/'))

/-- Parentless nodes of the intermediate graph, in node-index order
(graph.externals(Incoming) during graph_init). -/
def orphansM (fdoSup baseSup : List MIME) (baseSub fdoSub : List (MIME × MIME)) : List Nat :=
  (List.range (fbM fdoSup baseSup).nodes.length).filter
    (fun n => (edgeList1M fdoSup baseSup baseSub fdoSub).all (fun e => decide (e.2 ≠ n)))

/-- Fallback parent chosen for an orphan node by its top-level segment. -/
def fbParentM (fdoSup baseSup : List MIME) (n : Nat) : Nat :=
  let fb := fbM fdoSup baseSup
  let toplevel := toplevelM (fb.nodes.getD n "")
  if toplevel = "text" then fb.tIdx
  else if toplevel = "inode" then fb.aIdx
  else fb.oIdx

/-- The edge_list_2 HashSet of synthetic fallback edges. -/
def edgeList2M (fdoSup baseSup : List MIME) (baseSub fdoSub : List (MIME × MIME)) : List (Nat × Nat) :=
  let fb := fbM fdoSup baseSup
  (orphansM fdoSup baseSup baseSub fdoSub).foldl
    (fun acc n =>
      if n = fb.tIdx ∨ n = fb.oIdx ∨ n = fb.fIdx ∨ n = fb.aIdx then acc
      else setInsert acc (fbParentM fdoSup baseSup n, n)) []

/-- Synthetic edges actually added: edge_list_2.difference(edge_list). -/
def synthM (fdoSup baseSup : List MIME) (baseSub fdoSub : List (MIME × MIME)) : List (Nat × Nat) :=
  (edgeList2M fdoSup baseSup baseSub fdoSub).filter
    (fun e => decide (e ∉ edgeList1M fdoSup baseSup baseSub fdoSub))

/-- graph_init, parameterised by the module-supplied supported lists and
subclass pairs. -/
def graph_initM (fdoSup baseSup : List MIME) (baseSub fdoSub : List (MIME × MIME)) : TypeStruct :=
  ⟨(fbM fdoSup baseSup).nodes,
   edgeList1M fdoSup baseSup baseSub fdoSub ++ synthM fdoSup baseSup baseSub fdoSub,
   (fbM fdoSup baseSup).am⟩

/-- The TYPE lazy static: the graph_init result, or the empty TypeStruct
when initialisation failed (graph_init().unwrap_or(..)). -/
def TYPE_of (r : Except Unit TypeStruct) : TypeStruct :=
  match r with
  | .ok t => t
  | .error _ => ⟨[], [], []⟩

/-- Reachability along directed edges of the graph. -/
def ReachesM (g : TypeStruct) : Nat → Nat → Prop :=
  Relation.ReflTransGen (fun a b => (a, b) ∈ g.edges)

/-! ### The specialization walker -/

/-- Weight of a node (TYPE.graph[x]). -/
def nodeNameM (g : TypeStruct) (n : Nat) : MIME :=
  g.nodes.getD n ""

/-- Outgoing-neighbour collection of typegraph_walker: targets of the edges
leaving the node. -/
def childrenRaw (g : TypeStruct) (n : Nat) : List Nat :=
  (g.edges.filter (fun e => decide (e.1 = n))).map (fun e => e.2)

/-- TYPEORDER membership test of the reorder loop. -/
def isPriorityM (g : TypeStruct) (c : Nat) : Bool :=
  TYPEORDER.contains (nodeNameM g c)

/-- One pass of the reorder loop: at step i (fuel counting the remaining
steps) the element at index i, when the predicate holds, is removed and
reinserted at the front (children.remove(i); children.insert(0, x)). -/
def prioAux {α : Type} (pred : α → Bool) : Nat → Nat → List α → List α
  | _, 0, l => l
  | i, fuel+1, l =>
    match l[i]? with
    | none => l
    | some x => prioAux pred (i+1) fuel (if pred x then x :: l.eraseIdx i else l)

/-- The whole reorder loop (for i in 0..children.len()). -/
def prioritize {α : Type} (pred : α → Bool) (l : List α) : List α :=
  prioAux pred 0 l.length l

/-- Children of a node in the order the walker tests them. -/
def childOrder (g : TypeStruct) (n : Nat) : List Nat :=
  prioritize (isPriorityM g) (childrenRaw g n)

/-- Inner loop of typegraph_walker over the reordered children. -/
def walkChildren (walk : Nat → Option MIME) (test : Nat → Bool) (name : Nat → MIME) :
    List Nat → Option MIME
  | [] => none
  | c :: rest =>
    if test c then
      match walk c with
      | some foundtype => some foundtype
      | none => some (name c)
    else walkChildren walk test name rest

/-- typegraph_walker, with fuel standing for the unbounded recursion depth
of the Rust function. -/
def typegraph_walkerM {α : Type} (g : TypeStruct) (matchfn : MIME → α → Bool) (input : α) :
    Nat → Nat → Option MIME
  | 0, _ => none
  | fuel+1, parentnode =>
    walkChildren (fun c => typegraph_walkerM g matchfn input fuel c)
      (fun c => matchfn (nodeNameM g c) input)
      (fun c => nodeNameM g c)
      (childOrder g parentnode)

/-! ### Checker registry and dispatch -/

/-- One checker module: byte predicate, path predicate, supported list
(the CheckerStruct of lib.rs; the module bodies live outside the library
file and are abstract here). -/
structure CheckerStruct where
  from_u8 : List Nat → MIME → Bool
  from_filepath : String → MIME → Bool
  get_supported : List MIME

/-- Placeholder checker for the out-of-range default of list indexing;
never reached, since registry indices are always in range. -/
def defaultChecker : CheckerStruct :=
  ⟨fun _ _ => false, fun _ _ => false, []⟩

/-- Supported list of the module at an index. -/
def supAtM (checkers : List CheckerStruct) (i : Nat) : List MIME :=
  (checkers.map (fun c => c.get_supported)).getD i []

/-- Registration loop of CHECKER_SUPPORT from module index b on. -/
def csFrom : List (List MIME) → Nat → List (MIME × Nat) → List (MIME × Nat)
  | [], _, out => out
  | s :: rest, b, out => csFrom rest (b + 1) (s.foldl (fun o j => hmInsert o j b) out)

/-- The CHECKER_SUPPORT registry: MIME to owning module index. -/
def CHECKER_SUPPORTM (checkers : List CheckerStruct) : List (MIME × Nat) :=
  csFrom (checkers.map (fun c => c.get_supported)) 0 []

/-- Index of the last module from index b on whose supported list contains
the MIME; written after the spec's words (later module overwrites earlier). -/
def lastOwnerFrom : List (List MIME) → Nat → MIME → Option Nat
  | [], _, _ => none
  | s :: rest, b, m =>
    match lastOwnerFrom rest (b + 1) m with
    | some i => some i
    | none => if m ∈ s then some b else none

/-- match_u8: unknown MIME never matches, otherwise dispatch to the owning
module's byte predicate. -/
def match_u8M (checkers : List CheckerStruct) (mimetype : MIME) (bytes : List Nat) : Bool :=
  match lookupAM (CHECKER_SUPPORTM checkers) mimetype with
  | none => false
  | some x => (checkers.getD x defaultChecker).from_u8 bytes mimetype

/-- match_filepath: unknown MIME never matches, otherwise dispatch to the
owning module's path predicate. -/
def match_filepathM (checkers : List CheckerStruct) (mimetype : MIME) (filepath : String) : Bool :=
  match lookupAM (CHECKER_SUPPORTM checkers) mimetype with
  | none => false
  | some x => (checkers.getD x defaultChecker).from_filepath filepath mimetype

/-! ### Entry points -/

/-- Parentless nodes of the final graph in index order
(TYPE.graph.externals(Incoming)). -/
def externalsIncoming (g : TypeStruct) : List Nat :=
  (List.range g.nodes.length).filter (fun n => g.edges.all (fun e => decide (e.2 ≠ n)))

/-- from_u8_node: walk the graph from a given node with match_u8. -/
def from_u8_nodeM (fuel : Nat) (g : TypeStruct) (checkers : List CheckerStruct)
    (parentnode : Nat) (bytes : List Nat) : Option MIME :=
  typegraph_walkerM g (fun m b => match_u8M checkers m b) bytes fuel parentnode

/-- from_u8: start at the first parentless node; None when there is none. -/
def from_u8M (fuel : Nat) (g : TypeStruct) (checkers : List CheckerStruct)
    (bytes : List Nat) : Option MIME :=
  match (externalsIncoming g).head? with
  | none => none
  | some node => from_u8_nodeM fuel g checkers node bytes

/-- from_filepath_node: walk the graph from a given node with match_filepath. -/
def from_filepath_nodeM (fuel : Nat) (g : TypeStruct) (checkers : List CheckerStruct)
    (parentnode : Nat) (filepath : String) : Option MIME :=
  typegraph_walkerM g (fun m p => match_filepathM checkers m p) filepath fuel parentnode

/-- from_filepath: start at the first parentless node; None when there is none. -/
def from_filepathM (fuel : Nat) (g : TypeStruct) (checkers : List CheckerStruct)
    (filepath : String) : Option MIME :=
  match (externalsIncoming g).head? with
  | none => none
  | some node => from_filepath_nodeM fuel g checkers node filepath

/-! ### Helper lemmas: hash map -/

theorem lookupAM_nil (k : MIME) : lookupAM [] k = none := rfl

theorem find?_filter_of_imp (l : List (MIME × Nat)) (p q : (MIME × Nat) → Bool)
    (h : ∀ x, p x = true → q x = true) :
    (l.filter q).find? p = l.find? p := by
  induction l with
  | nil => rfl
  | cons a t ih =>
    by_cases hp : p a = true
    · have hq : q a = true := h a hp
      simp [List.filter, hq, List.find?, hp, ih]
    · have hp' : p a = false := by simpa using hp
      cases hq : q a <;> simp [List.filter, hq, List.find?, hp', ih]

theorem lookupAM_hmInsert (m : List (MIME × Nat)) (k k' : MIME) (v : Nat) :
    lookupAM (hmInsert m k v) k' = if k' = k then some v else lookupAM m k' := by
  by_cases h : k' = k
  · subst h; simp [lookupAM, hmInsert, List.find?]
  · have hne : (decide (k = k')) = false := by simpa using (Ne.symm h)
    simp only [lookupAM, hmInsert, List.find?, hne, if_neg h]
    rw [find?_filter_of_imp]
    intro x hx
    simp only [decide_eq_true_eq] at hx
    simpa [hx] using h

/-! ### Helper lemmas: set insert -/

theorem mem_setInsert (l : List (Nat × Nat)) (e x : Nat × Nat) :
    x ∈ setInsert l e ↔ x ∈ l ∨ x = e := by
  by_cases h : e ∈ l
  · simp only [setInsert, if_pos h]
    constructor
    · exact fun hx => Or.inl hx
    · rintro (hx | rfl) <;> assumption
  · simp [setInsert, if_neg h]

theorem nodup_setInsert (l : List (Nat × Nat)) (e : Nat × Nat) (h : l.Nodup) :
    (setInsert l e).Nodup := by
  by_cases he : e ∈ l
  · simpa [setInsert, if_pos he] using h
  · rw [setInsert, if_neg he]
    have hd : l.Disjoint [e] := by
      intro a ha hae
      rw [List.mem_singleton] at hae
      exact he (hae ▸ ha)
    exact h.append (List.nodup_singleton e) hd

/-! ### Helper lemmas: sort and dedup -/

theorem sortM_sorted (l : List MIME) : List.Sorted (· ≤ ·) (sortM l) :=
  List.sorted_insertionSort _ l

theorem mem_of_mem_dedupConsec : ∀ (l : List MIME) (x : MIME), x ∈ dedupConsec l → x ∈ l
  | [], _, h => by simp [dedupConsec] at h
  | [a], x, h => by simpa [dedupConsec] using h
  | a :: b :: rest, x, h => by
    by_cases hab : a = b
    · simp only [dedupConsec, if_pos hab] at h
      exact List.mem_cons_of_mem a (mem_of_mem_dedupConsec (b :: rest) x h)
    · simp only [dedupConsec, if_neg hab, List.mem_cons] at h
      rcases h with rfl | h
      · exact List.mem_cons_self x (b :: rest)
      · exact List.mem_cons_of_mem a (mem_of_mem_dedupConsec (b :: rest) x h)

theorem nodup_dedupConsec_of_sorted :
    ∀ (l : List MIME), List.Sorted (· ≤ ·) l → (dedupConsec l).Nodup
  | [], _ => by simp [dedupConsec]
  | [a], _ => by simp [dedupConsec]
  | a :: b :: rest, h => by
    have htail : List.Sorted (· ≤ ·) (b :: rest) := h.of_cons
    by_cases hab : a = b
    · simpa [dedupConsec, if_pos hab] using nodup_dedupConsec_of_sorted (b :: rest) htail
    · simp only [dedupConsec, if_neg hab, List.nodup_cons]
      refine ⟨?_, nodup_dedupConsec_of_sorted (b :: rest) htail⟩
      intro hmem
      have hmem' : a ∈ b :: rest := mem_of_mem_dedupConsec _ _ hmem
      have hle : a ≤ b := (List.sorted_cons.mp h).1 b (List.mem_cons_self b rest)
      rcases List.mem_cons.mp hmem' with rfl | hrest
      · exact hab rfl
      · have hba : b ≤ a := (List.sorted_cons.mp htail).1 a hrest
        exact hab (le_antisymm hle hba)

/-! ### Helper lemmas: posOf and addNodes -/

theorem posOf_lt_length (l : List MIME) (m : MIME) (h : m ∈ l) : posOf l m < l.length := by
  induction l with
  | nil => cases h
  | cons x xs ih =>
    by_cases hx : x = m
    · simp [posOf, hx]
    · have hm : m ∈ xs := by
        rcases List.mem_cons.mp h with rfl | hm
        · exact absurd rfl hx
        · exact hm
      simpa [posOf, hx, Nat.succ_lt_succ_iff] using ih hm

theorem getD_posOf (l : List MIME) (m : MIME) (h : m ∈ l) : l.getD (posOf l m) "" = m := by
  induction l with
  | nil => cases h
  | cons x xs ih =>
    by_cases hx : x = m
    · simp [posOf, hx]
    · have hm : m ∈ xs := by
        rcases List.mem_cons.mp h with rfl | hm
        · exact absurd rfl hx
        · exact hm
      simpa [posOf, hx] using ih hm

theorem addNodes_fst (st : List MIME × List (MIME × Nat)) (l : List MIME) :
    (addNodes st l).1 = st.1 ++ l := by
  induction l generalizing st with
  | nil => simp [addNodes]
  | cons x xs ih =>
    show (addNodes (st.1 ++ [x], hmInsert st.2 x st.1.length) xs).1 = st.1 ++ x :: xs
    rw [ih]
    simp

theorem addNodes_lookup (l : List MIME) (hnd : l.Nodup) :
    ∀ (st : List MIME × List (MIME × Nat)) (m : MIME),
      lookupAM (addNodes st l).2 m =
        if m ∈ l then some (st.1.length + posOf l m) else lookupAM st.2 m := by
  induction l with
  | nil => intro st m; simp [addNodes]
  | cons x xs ih =>
    intro st m
    have hnd' : xs.Nodup := hnd.of_cons
    have hx : x ∉ xs := (List.nodup_cons.mp hnd).1
    show lookupAM (addNodes (st.1 ++ [x], hmInsert st.2 x st.1.length) xs).2 m = _
    rw [ih hnd' _ m]
    by_cases hm : m ∈ xs
    · have hmx : ¬x = m := fun h => hx (h ▸ hm)
      simp [hm, List.mem_cons.mpr (Or.inr hm), posOf, hmx, Nat.add_assoc, Nat.add_comm 1]
    · rw [lookupAM_hmInsert]
      by_cases hmx : m = x
      · subst hmx
        simp [hm, posOf]
      · have : m ∉ x :: xs := by
          intro hc
          rcases List.mem_cons.mp hc with rfl | hc
          · exact hmx rfl
          · exact hm hc
        simp [hm, hmx, this]

/-! ### Helper lemmas: the reorder loop -/

theorem getElem?_append_cons {α : Type} (p : List α) (x : α) (rs : List α) :
    (p ++ x :: rs)[p.length]? = some x := by
  induction p with
  | nil => simp
  | cons a t ih => simpa using ih

theorem eraseIdx_append_cons {α : Type} (p : List α) (x : α) (rs : List α) :
    (p ++ x :: rs).eraseIdx p.length = p ++ rs := by
  induction p with
  | nil => rfl
  | cons a t ih => simpa [List.eraseIdx] using ih

theorem prioAux_spec {α : Type} (pred : α → Bool) :
    ∀ (rest processed : List α),
      prioAux pred processed.length rest.length (processed ++ rest) =
        (rest.filter pred).reverse ++ processed ++ rest.filter (fun x => !pred x) := by
  intro rest
  induction rest with
  | nil => intro processed; simp [prioAux]
  | cons x rs ih =>
    intro processed
    have hstep : prioAux pred processed.length (x :: rs).length (processed ++ x :: rs) =
        prioAux pred (processed.length + 1) rs.length
          (if pred x = true then x :: (processed ++ x :: rs).eraseIdx processed.length
           else processed ++ x :: rs) := by
      rw [List.length_cons, prioAux, getElem?_append_cons]
    rw [hstep]
    by_cases hpx : pred x = true
    · rw [if_pos hpx, eraseIdx_append_cons]
      have h := ih (x :: processed)
      simp only [List.length_cons, List.cons_append] at h
      rw [h]
      simp [List.filter_cons, hpx, List.append_assoc]
    · have hpx' : pred x = false := by simpa using hpx
      rw [if_neg hpx]
      have h := ih (processed ++ [x])
      simp only [List.length_append, List.length_singleton, List.append_assoc,
        List.singleton_append] at h
      rw [h]
      simp [List.filter_cons, hpx', List.append_assoc]

theorem prioritize_spec {α : Type} (pred : α → Bool) (l : List α) :
    prioritize pred l = (l.filter pred).reverse ++ l.filter (fun x => !pred x) := by
  have h := prioAux_spec pred l []
  simpa [prioritize] using h

/-! ### Helper lemmas: graph construction stages -/

theorem mimelistM_nodup (fdoSup baseSup : List MIME) : (mimelistM fdoSup baseSup).Nodup :=
  nodup_dedupConsec_of_sorted _ (sortM_sorted _)

theorem nodes0M_eq (fdoSup baseSup : List MIME) :
    nodes0M fdoSup baseSup = mimelistM fdoSup baseSup := by
  rw [nodes0M, addNodes_fst]
  simp

theorem lookupAM_am0M (fdoSup baseSup : List MIME) (m : MIME) :
    lookupAM (am0M fdoSup baseSup) m =
      if m ∈ mimelistM fdoSup baseSup then some (posOf (mimelistM fdoSup baseSup) m)
      else none := by
  rw [am0M, addNodes_lookup _ (mimelistM_nodup fdoSup baseSup)]
  simp [lookupAM_nil]

theorem getD_append_left {α : Type} (l L : List α) (i : Nat) (d : α) (h : i < l.length) :
    (l ++ L).getD i d = l.getD i d := by
  induction l generalizing i with
  | nil => cases h
  | cons a t ih =>
    cases i with
    | zero => rfl
    | succ j => simpa using ih j (Nat.lt_of_succ_lt_succ h)

theorem am0_lookup_getD (fdoSup baseSup : List MIME) (m : MIME) (i : Nat)
    (h : lookupAM (am0M fdoSup baseSup) m = some i) :
    i < (nodes0M fdoSup baseSup).length ∧ (nodes0M fdoSup baseSup).getD i "" = m := by
  rw [lookupAM_am0M] at h
  by_cases hm : m ∈ mimelistM fdoSup baseSup
  · rw [if_pos hm, Option.some.injEq] at h
    subst h
    rw [nodes0M_eq]
    exact ⟨posOf_lt_length _ _ hm, getD_posOf _ _ hm⟩
  · rw [if_neg hm] at h
    cases h

theorem ensureNode_step (nodes : List MIME) (am amTmp : List (MIME × Nat)) (name : MIME)
    (h0 : ∀ i, lookupAM amTmp name = some i → i < nodes.length ∧ nodes.getD i "" = name) :
    (∃ L, (ensureNode nodes am amTmp name).1 = nodes ++ L) ∧
      (ensureNode nodes am amTmp name).2.2 < (ensureNode nodes am amTmp name).1.length ∧
      (ensureNode nodes am amTmp name).1.getD (ensureNode nodes am amTmp name).2.2 "" = name := by
  cases h : lookupAM amTmp name with
  | some x =>
    have hx := h0 x h
    refine ⟨⟨[], by simp [ensureNode, h]⟩, by simp [ensureNode, h, hx.1], ?_⟩
    have heq : (ensureNode nodes am amTmp name).1.getD (ensureNode nodes am amTmp name).2.2 "" =
        nodes.getD x "" := by simp [ensureNode, h]
    rw [heq, hx.2]
  | none =>
    refine ⟨⟨[name], by simp [ensureNode, h]⟩, ?_, ?_⟩ <;>
      simp [ensureNode, h, getD_append_left]

theorem fbM_nodes_spec (fdoSup baseSup : List MIME) :
    (∃ L, (fbM fdoSup baseSup).nodes = nodes0M fdoSup baseSup ++ L) ∧
      ((fbM fdoSup baseSup).tIdx < (fbM fdoSup baseSup).nodes.length ∧
        (fbM fdoSup baseSup).nodes.getD (fbM fdoSup baseSup).tIdx "" = "text/plain") ∧
      ((fbM fdoSup baseSup).oIdx < (fbM fdoSup baseSup).nodes.length ∧
        (fbM fdoSup baseSup).nodes.getD (fbM fdoSup baseSup).oIdx "" = "application/octet-stream") ∧
      ((fbM fdoSup baseSup).aIdx < (fbM fdoSup baseSup).nodes.length ∧
        (fbM fdoSup baseSup).nodes.getD (fbM fdoSup baseSup).aIdx "" = "all/all") ∧
      ((fbM fdoSup baseSup).fIdx < (fbM fdoSup baseSup).nodes.length ∧
        (fbM fdoSup baseSup).nodes.getD (fbM fdoSup baseSup).fIdx "" = "all/allfiles") := by
  have hbase : ∀ (name : MIME) (i : Nat), lookupAM (am0M fdoSup baseSup) name = some i →
      i < (nodes0M fdoSup baseSup).length ∧ (nodes0M fdoSup baseSup).getD i "" = name :=
    fun name i h => am0_lookup_getD fdoSup baseSup name i h
  have hlift : ∀ (nodes : List MIME), (∃ L, nodes = nodes0M fdoSup baseSup ++ L) →
      ∀ (name : MIME) (i : Nat), lookupAM (am0M fdoSup baseSup) name = some i →
        i < nodes.length ∧ nodes.getD i "" = name := by
    rintro nodes ⟨L, rfl⟩ name i h
    have hb := hbase name i h
    constructor
    · calc i < (nodes0M fdoSup baseSup).length := hb.1
        _ ≤ (nodes0M fdoSup baseSup).length + L.length := Nat.le_add_right _ _
        _ = ((nodes0M fdoSup baseSup) ++ L).length := (List.length_append _ _).symm
    · rw [getD_append_left _ _ _ _ hb.1, hb.2]
  have hpersist : ∀ (nodes : List MIME) (L : List MIME) (i : Nat) (name : MIME),
      i < nodes.length → nodes.getD i "" = name →
        i < (nodes ++ L).length ∧ (nodes ++ L).getD i "" = name := by
    intro nodes L i name hi hn
    refine ⟨?_, by rw [getD_append_left _ _ _ _ hi, hn]⟩
    calc i < nodes.length := hi
      _ ≤ nodes.length + L.length := Nat.le_add_right _ _
      _ = (nodes ++ L).length := (List.length_append _ _).symm
  have hext0 : ∃ L, nodes0M fdoSup baseSup = nodes0M fdoSup baseSup ++ L := ⟨[], by simp⟩
  have h1 := ensureNode_step (nodes0M fdoSup baseSup) (am0M fdoSup baseSup)
    (am0M fdoSup baseSup) "text/plain" (hlift _ hext0 _)
  obtain ⟨⟨L1, hL1⟩, ht1, ht2⟩ := h1
  set r1 := ensureNode (nodes0M fdoSup baseSup) (am0M fdoSup baseSup)
    (am0M fdoSup baseSup) "text/plain" with hr1
  have hext1 : ∃ L, r1.1 = nodes0M fdoSup baseSup ++ L := ⟨L1, hL1⟩
  have h2 := ensureNode_step r1.1 r1.2.1 (am0M fdoSup baseSup)
    "application/octet-stream" (hlift _ hext1 _)
  obtain ⟨⟨L2, hL2⟩, ho1, ho2⟩ := h2
  set r2 := ensureNode r1.1 r1.2.1 (am0M fdoSup baseSup) "application/octet-stream" with hr2
  have hext2 : ∃ L, r2.1 = nodes0M fdoSup baseSup ++ L := by
    obtain ⟨La, ha⟩ := hext1
    exact ⟨La ++ L2, by rw [hL2, ha, List.append_assoc]⟩
  have h3 := ensureNode_step r2.1 r2.2.1 (am0M fdoSup baseSup) "all/all" (hlift _ hext2 _)
  obtain ⟨⟨L3, hL3⟩, ha1, ha2⟩ := h3
  set r3 := ensureNode r2.1 r2.2.1 (am0M fdoSup baseSup) "all/all" with hr3
  have hext3 : ∃ L, r3.1 = nodes0M fdoSup baseSup ++ L := by
    obtain ⟨La, ha⟩ := hext2
    exact ⟨La ++ L3, by rw [hL3, ha, List.append_assoc]⟩
  have h4 := ensureNode_step r3.1 r3.2.1 (am0M fdoSup baseSup) "all/allfiles" (hlift _ hext3 _)
  obtain ⟨⟨L4, hL4⟩, hf1, hf2⟩ := h4
  set r4 := ensureNode r3.1 r3.2.1 (am0M fdoSup baseSup) "all/allfiles" with hr4
  have hext4 : ∃ L, r4.1 = nodes0M fdoSup baseSup ++ L := by
    obtain ⟨La, ha⟩ := hext3
    exact ⟨La ++ L4, by rw [hL4, ha, List.append_assoc]⟩
  have hfb : fbM fdoSup baseSup = ⟨r4.1, r4.2.1, r1.2.2, r2.2.2, r3.2.2, r4.2.2⟩ := rfl
  rw [hfb]
  have ht' := hpersist r1.1 (L2 ++ L3 ++ L4) r1.2.2 "text/plain" ht1 ht2
  rw [← List.append_assoc, ← List.append_assoc, ← hL2, ← hL3, ← hL4] at ht'
  have ho' := hpersist r2.1 (L3 ++ L4) r2.2.2 "application/octet-stream" ho1 ho2
  rw [← List.append_assoc, ← hL3, ← hL4] at ho'
  have ha' := hpersist r3.1 L4 r3.2.2 "all/all" ha1 ha2
  rw [← hL4] at ha'
  exact ⟨hext4, ht', ho', ha', hf1, hf2⟩

theorem fbM_nodes_eq (fdoSup baseSup : List MIME) :
    (fbM fdoSup baseSup).nodes =
      mimelistM fdoSup baseSup ++
        (["text/plain", "application/octet-stream", "all/all", "all/allfiles"].filter
          (fun s => decide (lookupAM (am0M fdoSup baseSup) s = none))) := by
  cases h1 : lookupAM (am0M fdoSup baseSup) "text/plain" <;>
  cases h2 : lookupAM (am0M fdoSup baseSup) "application/octet-stream" <;>
  cases h3 : lookupAM (am0M fdoSup baseSup) "all/all" <;>
  cases h4 : lookupAM (am0M fdoSup baseSup) "all/allfiles" <;>
    simp [fbM, ensureNode, h1, h2, h3, h4, nodes0M_eq, List.filter]

theorem fbM_nodes_nodup (fdoSup baseSup : List MIME) : (fbM fdoSup baseSup).nodes.Nodup := by
  rw [fbM_nodes_eq]
  refine List.Nodup.append (mimelistM_nodup fdoSup baseSup) ?_ ?_
  · exact List.Nodup.filter _
      (by decide : (["text/plain", "application/octet-stream", "all/all", "all/allfiles"]
        : List MIME).Nodup)
  · intro a ha hf
    have hnone : lookupAM (am0M fdoSup baseSup) a = none := by
      have := (List.mem_filter.mp hf).2
      simpa using this
    rw [lookupAM_am0M, if_pos ha] at hnone
    cases hnone

/-! ### Helper lemmas: edge sets -/

theorem mem_edgeListOf_aux (am : List (MIME × Nat)) :
    ∀ (raw : List (MIME × MIME)) (acc : List (Nat × Nat)) (x : Nat × Nat),
      (x ∈ raw.foldl (fun acc q =>
          match resolvePair am q with
          | some e => setInsert acc e
          | none => acc) acc ↔
        x ∈ acc ∨ ∃ q ∈ raw, resolvePair am q = some x) := by
  intro raw
  induction raw with
  | nil => intro acc x; simp
  | cons q qs ih =>
    intro acc x
    cases hq : resolvePair am q with
    | none =>
      rw [List.foldl_cons]
      simp only [hq]
      rw [ih]
      simp [hq]
    | some e =>
      rw [List.foldl_cons]
      simp only [hq]
      rw [ih, mem_setInsert]
      constructor
      · rintro ((hx | rfl) | hqs)
        · exact Or.inl hx
        · exact Or.inr ⟨q, List.mem_cons_self q qs, hq⟩
        · obtain ⟨q', hq', hr⟩ := hqs
          exact Or.inr ⟨q', List.mem_cons_of_mem q hq', hr⟩
      · rintro (hx | ⟨q', hq', hr⟩)
        · exact Or.inl (Or.inl hx)
        · rcases List.mem_cons.mp hq' with rfl | hq'
          · rw [hq] at hr
            exact Or.inl (Or.inr (Option.some.injEq _ _ ▸ hr).symm)
          · exact Or.inr ⟨q', hq', hr⟩

theorem mem_edgeListOf (am : List (MIME × Nat)) (raw : List (MIME × MIME)) (x : Nat × Nat) :
    x ∈ edgeListOf am raw ↔ ∃ q ∈ raw, resolvePair am q = some x := by
  rw [edgeListOf, mem_edgeListOf_aux]
  simp

theorem nodup_edgeListOf_aux (am : List (MIME × Nat)) :
    ∀ (raw : List (MIME × MIME)) (acc : List (Nat × Nat)), acc.Nodup →
      (raw.foldl (fun acc q =>
          match resolvePair am q with
          | some e => setInsert acc e
          | none => acc) acc).Nodup := by
  intro raw
  induction raw with
  | nil => intro acc h; simpa
  | cons q qs ih =>
    intro acc h
    rw [List.foldl_cons]
    cases hq : resolvePair am q with
    | none => simp only [hq]; exact ih acc h
    | some e => simp only [hq]; exact ih _ (nodup_setInsert acc e h)

theorem nodup_edgeListOf (am : List (MIME × Nat)) (raw : List (MIME × MIME)) :
    (edgeListOf am raw).Nodup :=
  nodup_edgeListOf_aux am raw [] List.nodup_nil

theorem foldl_filter_isSome (am : List (MIME × Nat)) :
    ∀ (raw : List (MIME × MIME)) (acc : List (Nat × Nat)),
      (raw.filter (fun q => (resolvePair am q).isSome)).foldl (fun acc q =>
          match resolvePair am q with
          | some e => setInsert acc e
          | none => acc) acc =
        raw.foldl (fun acc q =>
          match resolvePair am q with
          | some e => setInsert acc e
          | none => acc) acc := by
  intro raw
  induction raw with
  | nil => intro acc; rfl
  | cons q qs ih =>
    intro acc
    cases hq : resolvePair am q with
    | some e =>
      rw [List.filter_cons_of_pos (by simp [hq]), List.foldl_cons, List.foldl_cons]
      simp only [hq]
      exact ih _
    | none =>
      rw [List.filter_cons_of_neg (by simp [hq]), List.foldl_cons]
      simp only [hq]
      exact ih acc

theorem edgeListOf_filter (am : List (MIME × Nat)) (raw : List (MIME × MIME)) :
    edgeListOf am (raw.filter (fun q => (resolvePair am q).isSome)) = edgeListOf am raw :=
  foldl_filter_isSome am raw []

theorem mem_orphansM (fdoSup baseSup : List MIME) (baseSub fdoSub : List (MIME × MIME)) (n : Nat) :
    n ∈ orphansM fdoSup baseSup baseSub fdoSub ↔
      n < (fbM fdoSup baseSup).nodes.length ∧
        ∀ e ∈ edgeList1M fdoSup baseSup baseSub fdoSub, e.2 ≠ n := by
  simp [orphansM, List.mem_filter, List.mem_range, List.all_eq_true]

theorem orphansM_nodup (fdoSup baseSup : List MIME) (baseSub fdoSub : List (MIME × MIME)) :
    (orphansM fdoSup baseSup baseSub fdoSub).Nodup :=
  (List.nodup_range _).filter _

theorem mem_edgeList2M_aux (fdoSup baseSup : List MIME) :
    ∀ (l : List Nat) (acc : List (Nat × Nat)) (x : Nat × Nat),
      (x ∈ l.foldl (fun acc n =>
          if n = (fbM fdoSup baseSup).tIdx ∨ n = (fbM fdoSup baseSup).oIdx ∨
             n = (fbM fdoSup baseSup).fIdx ∨ n = (fbM fdoSup baseSup).aIdx then acc
          else setInsert acc (fbParentM fdoSup baseSup n, n)) acc ↔
        x ∈ acc ∨ ∃ n ∈ l,
          ¬(n = (fbM fdoSup baseSup).tIdx ∨ n = (fbM fdoSup baseSup).oIdx ∨
            n = (fbM fdoSup baseSup).fIdx ∨ n = (fbM fdoSup baseSup).aIdx) ∧
          x = (fbParentM fdoSup baseSup n, n)) := by
  intro l
  induction l with
  | nil => intro acc x; simp
  | cons n ns ih =>
    intro acc x
    rw [List.foldl_cons]
    by_cases hskip : n = (fbM fdoSup baseSup).tIdx ∨ n = (fbM fdoSup baseSup).oIdx ∨
        n = (fbM fdoSup baseSup).fIdx ∨ n = (fbM fdoSup baseSup).aIdx
    · rw [if_pos hskip, ih]
      constructor
      · rintro (hx | ⟨n', hn', hs', hx'⟩)
        · exact Or.inl hx
        · exact Or.inr ⟨n', List.mem_cons_of_mem n hn', hs', hx'⟩
      · rintro (hx | ⟨n', hn', hs', hx'⟩)
        · exact Or.inl hx
        · rcases List.mem_cons.mp hn' with rfl | hn'
          · exact absurd hskip hs'
          · exact Or.inr ⟨n', hn', hs', hx'⟩
    · rw [if_neg hskip, ih, mem_setInsert]
      constructor
      · rintro ((hx | rfl) | ⟨n', hn', hs', hx'⟩)
        · exact Or.inl hx
        · exact Or.inr ⟨n, List.mem_cons_self n ns, hskip, rfl⟩
        · exact Or.inr ⟨n', List.mem_cons_of_mem n hn', hs', hx'⟩
      · rintro (hx | ⟨n', hn', hs', hx'⟩)
        · exact Or.inl (Or.inl hx)
        · rcases List.mem_cons.mp hn' with rfl | hn'
          · exact Or.inl (Or.inr hx')
          · exact Or.inr ⟨n', hn', hs', hx'⟩

theorem mem_edgeList2M (fdoSup baseSup : List MIME) (baseSub fdoSub : List (MIME × MIME))
    (x : Nat × Nat) :
    x ∈ edgeList2M fdoSup baseSup baseSub fdoSub ↔
      ∃ n ∈ orphansM fdoSup baseSup baseSub fdoSub,
        ¬(n = (fbM fdoSup baseSup).tIdx ∨ n = (fbM fdoSup baseSup).oIdx ∨
          n = (fbM fdoSup baseSup).fIdx ∨ n = (fbM fdoSup baseSup).aIdx) ∧
        x = (fbParentM fdoSup baseSup n, n) := by
  rw [edgeList2M]
  rw [mem_edgeList2M_aux]
  simp

theorem nodup_edgeList2M_aux (fdoSup baseSup : List MIME) :
    ∀ (l : List Nat) (acc : List (Nat × Nat)), acc.Nodup →
      (l.foldl (fun acc n =>
          if n = (fbM fdoSup baseSup).tIdx ∨ n = (fbM fdoSup baseSup).oIdx ∨
             n = (fbM fdoSup baseSup).fIdx ∨ n = (fbM fdoSup baseSup).aIdx then acc
          else setInsert acc (fbParentM fdoSup baseSup n, n)) acc).Nodup := by
  intro l
  induction l with
  | nil => intro acc h; simpa
  | cons n ns ih =>
    intro acc h
    rw [List.foldl_cons]
    by_cases hskip : n = (fbM fdoSup baseSup).tIdx ∨ n = (fbM fdoSup baseSup).oIdx ∨
        n = (fbM fdoSup baseSup).fIdx ∨ n = (fbM fdoSup baseSup).aIdx
    · rw [if_pos hskip]; exact ih acc h
    · rw [if_neg hskip]; exact ih _ (nodup_setInsert acc _ h)

theorem nodup_edgeList2M (fdoSup baseSup : List MIME) (baseSub fdoSub : List (MIME × MIME)) :
    (edgeList2M fdoSup baseSup baseSub fdoSub).Nodup :=
  nodup_edgeList2M_aux fdoSup baseSup _ [] List.nodup_nil

theorem mem_synthM (fdoSup baseSup : List MIME) (baseSub fdoSub : List (MIME × MIME))
    (x : Nat × Nat) :
    x ∈ synthM fdoSup baseSup baseSub fdoSub ↔
      x ∈ edgeList2M fdoSup baseSup baseSub fdoSub ∧
        x ∉ edgeList1M fdoSup baseSup baseSub fdoSub := by
  simp [synthM, List.mem_filter]

theorem countP_eq_one_of_unique (p : Nat × Nat → Bool) (x : Nat × Nat) :
    ∀ (l : List (Nat × Nat)), l.Nodup → x ∈ l → p x = true →
      (∀ y ∈ l, p y = true → y = x) → l.countP p = 1
  | [], _, hx, _, _ => absurd hx (List.not_mem_nil x)
  | a :: t, hnd, hx, hpx, huniq => by
    by_cases hax : a = x
    · subst hax
      have hzero : t.countP p = 0 := by
        rw [List.countP_eq_zero]
        intro y hy hpy
        have hyx := huniq y (List.mem_cons_of_mem _ hy) hpy
        subst hyx
        exact absurd hy (List.nodup_cons.mp hnd).1
      rw [List.countP_cons_of_pos p t hpx, hzero]
    · have hxt : x ∈ t := by
        rcases List.mem_cons.mp hx with h | h
        · exact absurd h.symm hax
        · exact h
      have hpa : ¬p a = true := by
        intro hpa
        exact hax (huniq a (List.mem_cons_self a t) hpa)
      rw [List.countP_cons_of_neg p t hpa]
      exact countP_eq_one_of_unique p x t (List.nodup_cons.mp hnd).2 hxt hpx
        (fun y hy hpy => huniq y (List.mem_cons_of_mem _ hy) hpy)

/-! ### Helper lemmas: checker registry -/

theorem lookupAM_foldl_hmInsert (b : Nat) :
    ∀ (s : List MIME) (out : List (MIME × Nat)) (m : MIME),
      lookupAM (s.foldl (fun o j => hmInsert o j b) out) m =
        if m ∈ s then some b else lookupAM out m := by
  intro s
  induction s with
  | nil => intro out m; simp
  | cons j js ih =>
    intro out m
    rw [List.foldl_cons, ih]
    by_cases hm : m ∈ js
    · simp [hm, List.mem_cons.mpr (Or.inr hm)]
    · rw [lookupAM_hmInsert]
      by_cases hmj : m = j
      · subst hmj
        simp [hm]
      · have hnc : m ∉ j :: js := by
          intro hc
          rcases List.mem_cons.mp hc with rfl | hc
          · exact hmj rfl
          · exact hm hc
        simp [hm, hmj, hnc]

theorem csFrom_lookup :
    ∀ (mods : List (List MIME)) (b : Nat) (out : List (MIME × Nat)) (m : MIME),
      lookupAM (csFrom mods b out) m =
        match lastOwnerFrom mods b m with
        | some i => some i
        | none => lookupAM out m := by
  intro mods
  induction mods with
  | nil => intro b out m; rfl
  | cons s rest ih =>
    intro b out m
    show lookupAM (csFrom rest (b + 1) (s.foldl (fun o j => hmInsert o j b) out)) m = _
    rw [ih, lookupAM_foldl_hmInsert]
    show _ = (match (match lastOwnerFrom rest (b + 1) m with
      | some i => some i
      | none => if m ∈ s then some b else none) with
      | some i => some i
      | none => lookupAM out m)
    cases hrest : lastOwnerFrom rest (b + 1) m <;> by_cases hm : m ∈ s <;> simp [hm]

theorem lastOwnerFrom_none :
    ∀ (mods : List (List MIME)) (b : Nat) (m : MIME),
      lastOwnerFrom mods b m = none ↔ ∀ j, j < mods.length → m ∉ mods.getD j [] := by
  intro mods
  induction mods with
  | nil => intro b m; simp [lastOwnerFrom]
  | cons s rest ih =>
    intro b m
    constructor
    · intro h j hj
      cases hrest : lastOwnerFrom rest (b + 1) m with
      | some i => rw [lastOwnerFrom, hrest] at h; cases h
      | none =>
        rw [lastOwnerFrom, hrest] at h
        have hms : m ∉ s := by
          intro hms
          rw [if_pos hms] at h
          cases h
        cases j with
        | zero => simpa using hms
        | succ j' =>
          have hj' : j' < rest.length := Nat.lt_of_succ_lt_succ (by simpa using hj)
          simpa using (ih (b + 1) m).mp hrest j' hj'
    · intro h
      have hms : m ∉ s := by simpa using h 0 (Nat.succ_pos _)
      have hrest : lastOwnerFrom rest (b + 1) m = none := by
        apply (ih (b + 1) m).mpr
        intro j hj
        simpa using h (j + 1) (Nat.succ_lt_succ hj)
      rw [lastOwnerFrom, hrest, if_neg hms]

theorem lastOwnerFrom_some :
    ∀ (mods : List (List MIME)) (b : Nat) (m : MIME) (i : Nat),
      lastOwnerFrom mods b m = some i ↔
        ∃ j, j < mods.length ∧ i = b + j ∧ m ∈ mods.getD j [] ∧
          ∀ k, j < k → k < mods.length → m ∉ mods.getD k [] := by
  intro mods
  induction mods with
  | nil => intro b m i; simp [lastOwnerFrom]
  | cons s rest ih =>
    intro b m i
    cases hrest : lastOwnerFrom rest (b + 1) m with
    | some i0 =>
      rw [lastOwnerFrom, hrest]
      obtain ⟨j', hj', hi0, hmem, hafter⟩ := (ih (b + 1) m i0).mp hrest
      constructor
      · intro h
        rw [Option.some.injEq] at h
        subst h
        refine ⟨j' + 1, Nat.succ_lt_succ hj', by omega, by simpa using hmem, ?_⟩
        intro k hk1 hk2
        cases k with
        | zero => omega
        | succ k' =>
          simpa using hafter k' (Nat.lt_of_succ_lt_succ hk1)
            (Nat.lt_of_succ_lt_succ (by simpa using hk2))
      · rintro ⟨j, hj, hi, hmem2, hafter2⟩
        cases j with
        | zero =>
          exfalso
          have := hafter2 (j' + 1) (Nat.succ_pos _) (Nat.succ_lt_succ hj')
          simp only [List.getD_cons_succ] at this
          exact this hmem
        | succ j'' =>
          have hr : lastOwnerFrom rest (b + 1) m = some ((b + 1) + j'') := by
            apply (ih (b + 1) m _).mpr
            refine ⟨j'', Nat.lt_of_succ_lt_succ hj, rfl, by simpa using hmem2, ?_⟩
            intro k hk1 hk2
            simpa using hafter2 (k + 1) (Nat.succ_lt_succ hk1) (Nat.succ_lt_succ hk2)
          rw [hrest, Option.some.injEq] at hr
          rw [Option.some.injEq]
          omega
    | none =>
      have hnone := (lastOwnerFrom_none rest (b + 1) m).mp hrest
      rw [lastOwnerFrom, hrest]
      by_cases hms : m ∈ s
      · rw [if_pos hms]
        constructor
        · intro h
          rw [Option.some.injEq] at h
          subst h
          refine ⟨0, Nat.succ_pos _, by omega, by simpa using hms, ?_⟩
          intro k hk1 hk2
          cases k with
          | zero => omega
          | succ k' =>
            simpa using hnone k' (Nat.lt_of_succ_lt_succ hk2)
        · rintro ⟨j, hj, hi, hmem2, _⟩
          cases j with
          | zero => rw [Option.some.injEq]; omega
          | succ j'' =>
            exfalso
            exact hnone j'' (Nat.lt_of_succ_lt_succ hj) (by simpa using hmem2)
      · rw [if_neg hms]
        constructor
        · intro h; cases h
        · rintro ⟨j, hj, hi, hmem2, _⟩
          cases j with
          | zero => exact absurd (by simpa using hmem2) hms
          | succ j'' =>
            exact absurd (by simpa using hmem2) (hnone j'' (Nat.lt_of_succ_lt_succ hj))

/-! ### Walker lemmas -/

theorem walkChildren_eq_none (walk : Nat → Option MIME) (test : Nat → Bool)
    (name : Nat → MIME) :
    ∀ (l : List Nat), (∀ x ∈ l, test x = false) → walkChildren walk test name l = none
  | [], _ => rfl
  | c :: rest, h => by
    rw [walkChildren, if_neg (by simp [h c (List.mem_cons_self c rest)])]
    exact walkChildren_eq_none walk test name rest
      (fun x hx => h x (List.mem_cons_of_mem c hx))

/-! ### Claims -/

/-- C1: for every start node, input and match predicate, the walker tests
each (reordered) child in order: a non-matching child is skipped, a
matching child is recursed into, a deeper match from the recursion is
propagated, a failed recursion returns the matching child's own
identifier, and when no child matches the walker returns none. -/
theorem claim_C1_walker_spec {α : Type} (g : TypeStruct) (matchfn : MIME → α → Bool)
    (input : α) (fuel parentnode : Nat) (walk : Nat → Option MIME) (test : Nat → Bool)
    (name : Nat → MIME) (c : Nat) (rest : List Nat) :
    (typegraph_walkerM g matchfn input (fuel + 1) parentnode =
      walkChildren (fun c => typegraph_walkerM g matchfn input fuel c)
        (fun c => matchfn (nodeNameM g c) input) (fun c => nodeNameM g c)
        (childOrder g parentnode)) ∧
    (walkChildren walk test name [] = none) ∧
    (walkChildren walk test name (c :: rest) =
      if test c then
        match walk c with
        | some foundtype => some foundtype
        | none => some (name c)
      else walkChildren walk test name rest) ∧
    ((∀ x ∈ childOrder g parentnode, matchfn (nodeNameM g x) input = false) →
      typegraph_walkerM g matchfn input (fuel + 1) parentnode = none) := by
  refine ⟨rfl, rfl, rfl, ?_⟩
  intro hall
  exact walkChildren_eq_none _ _ _ _ (fun x hx => hall x hx)

/-- Witness for C1: on a one-node graph with an always-false predicate the
walker returns none. -/
theorem claim_C1_witness :
    typegraph_walkerM (⟨["all/all"], [], []⟩ : TypeStruct)
      (fun (_ : MIME) (_ : Nat) => false) 0 1 0 = none :=
  (claim_C1_walker_spec (⟨["all/all"], [], []⟩ : TypeStruct)
      (fun (_ : MIME) (_ : Nat) => false) 0 0 0 (fun _ => none) (fun _ => false)
      (fun _ => "") 0 []).2.2.2 (fun _ _ => rfl)

/-- C3 counterexample: a node whose children are image/png then image/jpeg
(both in TYPEORDER, already in the priority list's order) is reordered by
the walker to jpeg-before-png, not to the priority list's png-before-jpeg
order the claim states. -/
theorem claim_C3_counterexample :
    childrenRaw (⟨["all/all", "image/png", "image/jpeg"], [(0, 1), (0, 2)], []⟩ : TypeStruct) 0
        = [1, 2] ∧
    nodeNameM (⟨["all/all", "image/png", "image/jpeg"], [(0, 1), (0, 2)], []⟩ : TypeStruct) 1
        = "image/png" ∧
    nodeNameM (⟨["all/all", "image/png", "image/jpeg"], [(0, 1), (0, 2)], []⟩ : TypeStruct) 2
        = "image/jpeg" ∧
    childOrder (⟨["all/all", "image/png", "image/jpeg"], [(0, 1), (0, 2)], []⟩ : TypeStruct) 0
        = [2, 1] ∧
    childOrder (⟨["all/all", "image/png", "image/jpeg"], [(0, 1), (0, 2)], []⟩ : TypeStruct) 0
        ≠ [1, 2] := by
  refine ⟨by decide, by decide, by decide, by decide, by decide⟩

/-- C3 amended: before testing, the walker reorders the children so that
every TYPEORDER child precedes every non-TYPEORDER child and the
non-TYPEORDER children keep their original relative order; the TYPEORDER
children, however, appear in reverse of their original relative order (each
is moved to the front in turn), not in the priority list's order. -/
theorem claim_C3_amended (g : TypeStruct) (n : Nat) :
    childOrder g n =
      ((childrenRaw g n).filter (isPriorityM g)).reverse ++
        (childrenRaw g n).filter (fun c => !isPriorityM g c) :=
  prioritize_spec (isPriorityM g) (childrenRaw g n)

/-- C10: when graph initialisation fails, TYPE falls back to the empty
TypeStruct, whose externals list is empty, so from_u8 and from_filepath
return none for every input without panicking. -/
theorem claim_C10_init_failure (e : Unit) (fuel : Nat) (checkers : List CheckerStruct)
    (bytes : List Nat) (filepath : String) :
    TYPE_of (Except.error e) = ⟨[], [], []⟩ ∧
    externalsIncoming (TYPE_of (Except.error e)) = [] ∧
    from_u8M fuel (TYPE_of (Except.error e)) checkers bytes = none ∧
    from_filepathM fuel (TYPE_of (Except.error e)) checkers filepath = none :=
  ⟨rfl, rfl, rfl, rfl⟩

/-- C2 counterexample: with a conforming module set (one module supporting
only text/plain), graph construction succeeds, the classification root is
the parentless node text/plain, and from_u8 returns none for a byte input
as a perfectly normal return value — no fatal invariant violation occurs at
this entry point. -/
theorem claim_C2_counterexample :
    from_u8M 5 (graph_initM ["text/plain"] [] [] [])
      [⟨fun _ _ => false, fun _ _ => false, ["text/plain"]⟩] [137, 80, 78, 71] = none := by
  decide

/-- C2 amended: from_u8 simply returns the walker's result (none when the
graph has no parentless node), and a no-match outcome is returned as an
ordinary none rather than being treated as a fatal invariant violation;
there are conforming module configurations for which from_u8 returns none
for every byte input. -/
theorem claim_C2_amended :
    (∀ (fuel : Nat) (g : TypeStruct) (checkers : List CheckerStruct) (bytes : List Nat),
      from_u8M fuel g checkers bytes =
        match (externalsIncoming g).head? with
        | none => none
        | some node =>
          typegraph_walkerM g (fun m b => match_u8M checkers m b) bytes fuel node) ∧
    (∀ (fuel : Nat) (checkers : List CheckerStruct) (bytes : List Nat),
      from_u8M fuel (graph_initM ["text/plain"] [] [] []) checkers bytes = none) := by
  constructor
  · intro fuel g checkers bytes
    rfl
  · intro fuel checkers bytes
    have hhead : (externalsIncoming (graph_initM ["text/plain"] [] [] [])).head? = some 0 := by
      decide
    have hchild : childOrder (graph_initM ["text/plain"] [] [] []) 0 = [] := by
      decide
    show (match (externalsIncoming (graph_initM ["text/plain"] [] [] [])).head? with
      | none => none
      | some node => from_u8_nodeM fuel (graph_initM ["text/plain"] [] [] []) checkers
          node bytes) = none
    rw [hhead]
    show typegraph_walkerM (graph_initM ["text/plain"] [] [] [])
        (fun m b => match_u8M checkers m b) bytes fuel 0 = none
    cases fuel with
    | zero => rfl
    | succ f =>
      show walkChildren _ _ _ (childOrder (graph_initM ["text/plain"] [] [] []) 0) = none
      rw [hchild]
      rfl

/-- C6 counterexample: with empty module inputs the graph consists of the
four isolated fallback nodes, classification starts at the first parentless
node (node 0, text/plain), and node 1 (application/octet-stream) is not
reachable from it: not every node is reachable from the classification
root. -/
theorem claim_C6_counterexample :
    (externalsIncoming (graph_initM [] [] [] [])).head? = some 0 ∧
    (graph_initM [] [] [] []).nodes.length = 4 ∧
    ¬ ReachesM (graph_initM [] [] [] []) 0 1 := by
  refine ⟨by decide, by decide, ?_⟩
  intro h
  rcases Relation.ReflTransGen.cases_head h with h01 | ⟨c, hc, _⟩
  · exact absurd h01 (by decide)
  · have hedges : (graph_initM [] [] [] []).edges = [] := by decide
    rw [hedges] at hc
    cases hc

/-- C6 amended: for all module inputs the constructed graph has no two
nodes with the same identifier and no duplicate edge between the same
ordered pair (module pairs are deduplicated through a set and synthetic
edges are only added when not already present); reachability of every node
from the classification root, however, does not hold in general. -/
theorem claim_C6_amended (fdoSup baseSup : List MIME) (baseSub fdoSub : List (MIME × MIME)) :
    (graph_initM fdoSup baseSup baseSub fdoSub).nodes.Nodup ∧
    (graph_initM fdoSup baseSup baseSub fdoSub).edges.Nodup := by
  refine ⟨fbM_nodes_nodup fdoSup baseSup, ?_⟩
  show (edgeList1M fdoSup baseSup baseSub fdoSub ++ synthM fdoSup baseSup baseSub fdoSub).Nodup
  refine List.Nodup.append (nodup_edgeListOf _ _) ?_ ?_
  · exact List.Nodup.filter _ (nodup_edgeList2M fdoSup baseSup baseSub fdoSub)
  · intro a ha hs
    exact ((mem_synthM fdoSup baseSup baseSub fdoSub a).mp hs).2 ha

/-- C7: a subclass pair whose child or parent MIME has no node is silently
discarded — filtering such pairs out beforehand yields the identical
TypeStruct — and in the concrete scenario where a module supports only
text/plain while declaring (application/json, text/plain), the resulting
graph equals the one built with no pairs at all and text/plain has no
children. -/
theorem claim_C7_dangling_dropped :
    (∀ (fdoSup baseSup : List MIME) (baseSub fdoSub : List (MIME × MIME)),
      graph_initM fdoSup baseSup
          (baseSub.filter (fun q => (resolvePair (am0M fdoSup baseSup) q).isSome))
          (fdoSub.filter (fun q => (resolvePair (am0M fdoSup baseSup) q).isSome)) =
        graph_initM fdoSup baseSup baseSub fdoSub) ∧
    graph_initM ["text/plain"] [] [("application/json", "text/plain")] [] =
      graph_initM ["text/plain"] [] [] [] ∧
    nodeNameM (graph_initM ["text/plain"] [] [("application/json", "text/plain")] []) 0 =
      "text/plain" ∧
    childrenRaw (graph_initM ["text/plain"] [] [("application/json", "text/plain")] []) 0 =
      [] := by
  refine ⟨?_, by decide, by decide, by decide⟩
  intro fdoSup baseSup baseSub fdoSub
  have h1 : edgeList1M fdoSup baseSup
      (baseSub.filter (fun q => (resolvePair (am0M fdoSup baseSup) q).isSome))
      (fdoSub.filter (fun q => (resolvePair (am0M fdoSup baseSup) q).isSome)) =
      edgeList1M fdoSup baseSup baseSub fdoSub := by
    rw [edgeList1M, edgeList1M, ← List.filter_append, edgeListOf_filter]
  have h2 : orphansM fdoSup baseSup
      (baseSub.filter (fun q => (resolvePair (am0M fdoSup baseSup) q).isSome))
      (fdoSub.filter (fun q => (resolvePair (am0M fdoSup baseSup) q).isSome)) =
      orphansM fdoSup baseSup baseSub fdoSub := by
    rw [orphansM, orphansM, h1]
  have h3 : edgeList2M fdoSup baseSup
      (baseSub.filter (fun q => (resolvePair (am0M fdoSup baseSup) q).isSome))
      (fdoSub.filter (fun q => (resolvePair (am0M fdoSup baseSup) q).isSome)) =
      edgeList2M fdoSup baseSup baseSub fdoSub := by
    rw [edgeList2M, edgeList2M, h2]
  have h4 : synthM fdoSup baseSup
      (baseSub.filter (fun q => (resolvePair (am0M fdoSup baseSup) q).isSome))
      (fdoSub.filter (fun q => (resolvePair (am0M fdoSup baseSup) q).isSome)) =
      synthM fdoSup baseSup baseSub fdoSub := by
    rw [synthM, synthM, h3, h1]
  rw [graph_initM, graph_initM, h1, h4]

/-- C5 counterexample: with one module supporting image/png and no declared
pairs, the synthetic fallback edge attaching image/png (node 0) as a child
of application/octet-stream (node 2) is stored as (2, 0) — directed from
the broader parent to the more specific child — and not as the
child-to-parent edge (0, 2) the claim asserts for all edges. -/
theorem claim_C5_counterexample :
    nodeNameM (graph_initM ["image/png"] [] [] []) 0 = "image/png" ∧
    nodeNameM (graph_initM ["image/png"] [] [] []) 2 = "application/octet-stream" ∧
    (graph_initM ["image/png"] [] [] []).edges = [(2, 0)] ∧
    (0, 2) ∉ (graph_initM ["image/png"] [] [] []).edges := by
  refine ⟨by decide, by decide, by decide, by decide⟩

/-- C5 amended: a kept (child, parent) module pair is added as the edge
(child node, parent node), but the synthetic fallback edges have the
opposite orientation — their source is always one of the fallback parents
(text/plain, all/all or application/octet-stream) and their target the
attached orphan — and the walker enumerates a node's children as the
targets of its outgoing edges, which matches the synthetic edges'
orientation and is the reverse of the declared pairs' orientation. -/
theorem claim_C5_amended (fdoSup baseSup : List MIME) (baseSub fdoSub : List (MIME × MIME))
    (c p : MIME) (ci pi : Nat) :
    ((c, p) ∈ baseSub ++ fdoSub →
      lookupAM (am0M fdoSup baseSup) c = some ci →
      lookupAM (am0M fdoSup baseSup) p = some pi →
      (ci, pi) ∈ (graph_initM fdoSup baseSup baseSub fdoSub).edges) ∧
    (∀ e ∈ synthM fdoSup baseSup baseSub fdoSub,
      e.1 = (fbM fdoSup baseSup).tIdx ∨ e.1 = (fbM fdoSup baseSup).aIdx ∨
        e.1 = (fbM fdoSup baseSup).oIdx) ∧
    (∀ (g : TypeStruct) (n : Nat),
      childrenRaw g n = (g.edges.filter (fun e => decide (e.1 = n))).map (fun e => e.2)) := by
  refine ⟨?_, ?_, fun g n => rfl⟩
  · intro hmem hc hp
    show (ci, pi) ∈ edgeList1M fdoSup baseSup baseSub fdoSub ++ synthM fdoSup baseSup baseSub fdoSub
    apply List.mem_append_left
    rw [edgeList1M, mem_edgeListOf]
    refine ⟨(c, p), hmem, ?_⟩
    simp [resolvePair, hc, hp]
  · intro e he
    obtain ⟨n, _, _, rfl⟩ := (mem_edgeList2M fdoSup baseSup baseSub fdoSub e).mp
      ((mem_synthM fdoSup baseSup baseSub fdoSub e).mp he).1
    show fbParentM fdoSup baseSup n = _ ∨ fbParentM fdoSup baseSup n = _ ∨
      fbParentM fdoSup baseSup n = _
    simp only [fbParentM]
    split_ifs <;> simp

/-- Witness for C5 (amended): a module supporting image/png declaring the
kept pair (image/png, image/png) produces the edge (0, 0). -/
theorem claim_C5_witness :
    (0, 0) ∈ (graph_initM ["image/png"] [] [("image/png", "image/png")] []).edges :=
  (claim_C5_amended ["image/png"] [] [("image/png", "image/png")] []
    "image/png" "image/png" 0 0).1 (by decide) (by decide) (by decide)

theorem cs_lookup_iff (checkers : List CheckerStruct) (m : MIME) :
    (∀ i, lookupAM (CHECKER_SUPPORTM checkers) m = some i ↔
      (i < checkers.length ∧ m ∈ supAtM checkers i ∧
        ∀ k, i < k → k < checkers.length → m ∉ supAtM checkers k)) ∧
    (lookupAM (CHECKER_SUPPORTM checkers) m = none ↔
      ∀ k, k < checkers.length → m ∉ supAtM checkers k) := by
  have hlen : (checkers.map (fun c => c.get_supported)).length = checkers.length :=
    List.length_map _ _
  rw [CHECKER_SUPPORTM]
  rw [csFrom_lookup]
  cases h : lastOwnerFrom (checkers.map (fun c => c.get_supported)) 0 m with
  | some i0 =>
    obtain ⟨j, hj, hi0, hmem, hafter⟩ :=
      (lastOwnerFrom_some (checkers.map (fun c => c.get_supported)) 0 m i0).mp h
    rw [Nat.zero_add] at hi0
    subst hi0
    constructor
    · intro i
      constructor
      · intro hsome
        rw [Option.some.injEq] at hsome
        subst hsome
        refine ⟨hlen ▸ hj, hmem, ?_⟩
        intro k hk1 hk2
        exact hafter k hk1 (hlen ▸ hk2)
      · rintro ⟨hilt, himem, hiafter⟩
        have : lastOwnerFrom (checkers.map (fun c => c.get_supported)) 0 m = some (0 + i) := by
          apply (lastOwnerFrom_some _ 0 m _).mpr
          exact ⟨i, hlen ▸ hilt, rfl, himem, fun k hk1 hk2 => hiafter k hk1 (hlen ▸ hk2)⟩
        rw [h, Option.some.injEq] at this
        rw [Option.some.injEq]
        omega
    · constructor
      · intro hc
        cases hc
      · intro hall
        have : lastOwnerFrom (checkers.map (fun c => c.get_supported)) 0 m = none := by
          apply (lastOwnerFrom_none _ 0 m).mpr
          intro k hk
          exact hall k (hlen ▸ hk)
        rw [h] at this
        cases this
  | none =>
    have hnone := (lastOwnerFrom_none (checkers.map (fun c => c.get_supported)) 0 m).mp h
    constructor
    · intro i
      constructor
      · intro hc
        rw [lookupAM_nil] at hc
        cases hc
      · rintro ⟨hilt, himem, _⟩
        exact absurd himem (hnone i (hlen ▸ hilt))
    · constructor
      · intro _ k hk
        exact hnone k (hlen ▸ hk)
      · intro _
        exact lookupAM_nil m

/-- C8: the checker registry maps a MIME to the index of the last module in
registration order claiming it — lookup returns some i exactly when module
i claims the MIME and no later module does, and none exactly when no module
claims it; conflicts are overwritten silently, never reported. -/
theorem claim_C8_registry (checkers : List CheckerStruct) (m : MIME) :
    (∀ i, lookupAM (CHECKER_SUPPORTM checkers) m = some i ↔
      (i < checkers.length ∧ m ∈ supAtM checkers i ∧
        ∀ k, i < k → k < checkers.length → m ∉ supAtM checkers k)) ∧
    (lookupAM (CHECKER_SUPPORTM checkers) m = none ↔
      ∀ k, k < checkers.length → m ∉ supAtM checkers k) :=
  cs_lookup_iff checkers m

/-- C9: a MIME not claimed by any module never matches — both direct tests
return false rather than an error — and a claimed MIME is dispatched to
exactly the owning module's predicate. -/
theorem claim_C9_dispatch (checkers : List CheckerStruct) (m : MIME)
    (bytes : List Nat) (filepath : String) :
    ((∀ k, k < checkers.length → m ∉ supAtM checkers k) →
      match_u8M checkers m bytes = false ∧ match_filepathM checkers m filepath = false) ∧
    (∀ i, lookupAM (CHECKER_SUPPORTM checkers) m = some i →
      match_u8M checkers m bytes = (checkers.getD i defaultChecker).from_u8 bytes m ∧
      match_filepathM checkers m filepath =
        (checkers.getD i defaultChecker).from_filepath filepath m) := by
  constructor
  · intro hall
    have hnone : lookupAM (CHECKER_SUPPORTM checkers) m = none :=
      ((cs_lookup_iff checkers m).2).mpr hall
    constructor
    · rw [match_u8M, hnone]
    · rw [match_filepathM, hnone]
  · intro i hi
    constructor
    · rw [match_u8M, hi]
    · rw [match_filepathM, hi]

/-- Witness for C9: with one module owning text/plain, the unknown MIME
application/json never matches, and text/plain dispatches to the owning
module's predicates. -/
theorem claim_C9_witness :
    (match_u8M [⟨fun _ _ => true, fun _ _ => false, ["text/plain"]⟩]
        "application/json" [1, 2] = false ∧
      match_filepathM [⟨fun _ _ => true, fun _ _ => false, ["text/plain"]⟩]
        "application/json" "a.json" = false) ∧
    (match_u8M [⟨fun _ _ => true, fun _ _ => false, ["text/plain"]⟩]
        "text/plain" [1, 2] = true ∧
      match_filepathM [⟨fun _ _ => true, fun _ _ => false, ["text/plain"]⟩]
        "text/plain" "a.txt" = false) :=
  ⟨(claim_C9_dispatch [⟨fun _ _ => true, fun _ _ => false, ["text/plain"]⟩]
      "application/json" [1, 2] "a.json").1 (by decide),
   (claim_C9_dispatch [⟨fun _ _ => true, fun _ _ => false, ["text/plain"]⟩]
      "text/plain" [1, 2] "a.txt").2 0 (by decide)⟩

/-- C4: every parentless non-fallback node of the intermediate graph gets
exactly one synthetic incoming edge, attaching it as a child (outgoing-edge
target) of text/plain when its top-level segment is text, of all/all when
it is inode, and of application/octet-stream otherwise; the four fallback
nodes themselves are never the target of a synthetic edge. -/
theorem claim_C4_fallback_attachment (fdoSup baseSup : List MIME)
    (baseSub fdoSub : List (MIME × MIME)) (n : Nat)
    (h1 : n ∈ orphansM fdoSup baseSup baseSub fdoSub)
    (h2 : n ∉ fbIdxListM fdoSup baseSup) :
    (fbParentM fdoSup baseSup n, n) ∈ (graph_initM fdoSup baseSup baseSub fdoSub).edges ∧
    (graph_initM fdoSup baseSup baseSub fdoSub).edges.countP (fun e => decide (e.2 = n)) = 1 ∧
    (fbParentM fdoSup baseSup n =
      if toplevelM (nodeNameM (graph_initM fdoSup baseSup baseSub fdoSub) n) = "text"
      then (fbM fdoSup baseSup).tIdx
      else if toplevelM (nodeNameM (graph_initM fdoSup baseSup baseSub fdoSub) n) = "inode"
      then (fbM fdoSup baseSup).aIdx
      else (fbM fdoSup baseSup).oIdx) ∧
    nodeNameM (graph_initM fdoSup baseSup baseSub fdoSub) (fbM fdoSup baseSup).tIdx =
      "text/plain" ∧
    nodeNameM (graph_initM fdoSup baseSup baseSub fdoSub) (fbM fdoSup baseSup).aIdx =
      "all/all" ∧
    nodeNameM (graph_initM fdoSup baseSup baseSub fdoSub) (fbM fdoSup baseSup).oIdx =
      "application/octet-stream" ∧
    (∀ f ∈ fbIdxListM fdoSup baseSup,
      ∀ e ∈ synthM fdoSup baseSup baseSub fdoSub, e.2 ≠ f) := by
  have hskip : ¬(n = (fbM fdoSup baseSup).tIdx ∨ n = (fbM fdoSup baseSup).oIdx ∨
      n = (fbM fdoSup baseSup).fIdx ∨ n = (fbM fdoSup baseSup).aIdx) := by
    intro hc
    apply h2
    rw [fbIdxListM]
    rcases hc with rfl | rfl | rfl | rfl <;> simp
  have horph := (mem_orphansM fdoSup baseSup baseSub fdoSub n).mp h1
  have hmem2 : (fbParentM fdoSup baseSup n, n) ∈ edgeList2M fdoSup baseSup baseSub fdoSub :=
    (mem_edgeList2M fdoSup baseSup baseSub fdoSub _).mpr ⟨n, h1, hskip, rfl⟩
  have hnotin1 : (fbParentM fdoSup baseSup n, n) ∉ edgeList1M fdoSup baseSup baseSub fdoSub :=
    fun hc => (horph.2 _ hc) rfl
  have hsynth : (fbParentM fdoSup baseSup n, n) ∈ synthM fdoSup baseSup baseSub fdoSub :=
    (mem_synthM fdoSup baseSup baseSub fdoSub _).mpr ⟨hmem2, hnotin1⟩
  obtain ⟨_, ⟨_, htn⟩, ⟨_, hon⟩, ⟨_, han⟩, _⟩ := fbM_nodes_spec fdoSup baseSup
  refine ⟨?_, ?_, rfl, htn, han, hon, ?_⟩
  · exact List.mem_append_right _ hsynth
  · show (edgeList1M fdoSup baseSup baseSub fdoSub ++
        synthM fdoSup baseSup baseSub fdoSub).countP (fun e => decide (e.2 = n)) = 1
    rw [List.countP_append]
    have hz : (edgeList1M fdoSup baseSup baseSub fdoSub).countP
        (fun e => decide (e.2 = n)) = 0 := by
      rw [List.countP_eq_zero]
      intro e he
      simpa using horph.2 e he
    have ho : (synthM fdoSup baseSup baseSub fdoSub).countP
        (fun e => decide (e.2 = n)) = 1 := by
      apply countP_eq_one_of_unique _ _ _
        (List.Nodup.filter _ (nodup_edgeList2M fdoSup baseSup baseSub fdoSub)) hsynth (by simp)
      intro y hy hpy
      obtain ⟨n', _, _, rfl⟩ := (mem_edgeList2M fdoSup baseSup baseSub fdoSub y).mp
        ((mem_synthM fdoSup baseSup baseSub fdoSub y).mp hy).1
      have : n' = n := by simpa using hpy
      subst this
      rfl
    rw [hz, ho]
  · intro f hf e he heq
    obtain ⟨n', _, hskip', rfl⟩ := (mem_edgeList2M fdoSup baseSup baseSub fdoSub e).mp
      ((mem_synthM fdoSup baseSup baseSub fdoSub e).mp he).1
    simp only at heq
    subst heq
    apply hskip'
    rw [fbIdxListM] at hf
    simp only [List.mem_cons, List.not_mem_nil, or_false] at hf
    rcases hf with rfl | rfl | rfl | rfl
    · exact Or.inl rfl
    · exact Or.inr (Or.inl rfl)
    · exact Or.inr (Or.inr (Or.inl rfl))
    · exact Or.inr (Or.inr (Or.inr rfl))

/-- Witness for C4: with a single module supporting image/png, node 0 is a
parentless non-fallback node, and it is attached by exactly one synthetic
edge under application/octet-stream. -/
theorem claim_C4_witness :
    (0 ∈ orphansM ["image/png"] [] [] []) ∧
    (0 ∉ fbIdxListM ["image/png"] []) ∧
    (fbParentM ["image/png"] [] 0, 0) ∈ (graph_initM ["image/png"] [] [] []).edges ∧
    (graph_initM ["image/png"] [] [] []).edges.countP (fun e => decide (e.2 = 0)) = 1 :=
  ⟨by decide, by decide,
   (claim_C4_fallback_attachment ["image/png"] [] [] [] 0 (by decide) (by decide)).1,
   (claim_C4_fallback_attachment ["image/png"] [] [] [] 0 (by decide) (by decide)).2.1⟩

end TreeMagic
